import Mathlib

/-!
Verification of livestream-dl, an HLS livestream downloader.

This file gives a shallow embedding in Lean of the pure cores of the
program: the playlist poller's segment-scanning loop
(`src/livestream/playlist_fetcher.rs`), encryption key/IV handling
(`src/encryption.rs`, `src/livestream/encryption.rs`), byte-range header
formatting (`src/livestream/remote_data.rs`, `src/livestream/segment.rs`),
Netscape cookie-file parsing (`src/livestream/cookies.rs`), variant
selection (`src/livestream/mod.rs`), the concatenation engine
(`src/mux/concat.rs`) and the remux driver (`src/mux/mod.rs`).
Machine integers (`u64`) are modelled as `Nat`, with explicit bounds
where the width matters; fallible Rust code returns `Option`/`Except`;
Rust panics are modelled as the `none`/error branch of a total function.
-/

/-! ## Segment keys

A sequence segment is keyed by `(discontinuity_sequence, media_sequence)`,
compared the way Rust compares `(u64, u64)` tuples: lexicographically.
-/

/-- A segment key `(discon_seq, seq)`, both `u64` in the source. -/
abbrev SegKey := Nat × Nat

/-- Strict lexicographic order on segment keys (Rust `<` on `(u64, u64)`). -/
def keyLt (a b : SegKey) : Prop :=
  a.1 < b.1 ∨ (a.1 = b.1 ∧ a.2 < b.2)

/-- Non-strict lexicographic order on segment keys (Rust `<=` on `(u64, u64)`). -/
def keyLe (a b : SegKey) : Prop :=
  a.1 < b.1 ∨ (a.1 = b.1 ∧ a.2 ≤ b.2)

instance (a b : SegKey) : Decidable (keyLt a b) := by
  unfold keyLt; exact inferInstance

instance (a b : SegKey) : Decidable (keyLe a b) := by
  unfold keyLe; exact inferInstance

theorem keyLt_irrefl (a : SegKey) : ¬ keyLt a a := by
  simp [keyLt]

theorem keyLt_trans {a b c : SegKey} (h1 : keyLt a b) (h2 : keyLt b c) : keyLt a c := by
  rcases h1 with h1 | ⟨h1, h1'⟩ <;> rcases h2 with h2 | ⟨h2, h2'⟩ <;>
    simp [keyLt] <;> omega

theorem keyLt_of_le_of_lt {a b c : SegKey} (h1 : keyLe a b) (h2 : keyLt b c) : keyLt a c := by
  rcases h1 with h1 | ⟨h1, h1'⟩ <;> rcases h2 with h2 | ⟨h2, h2'⟩ <;>
    simp [keyLt] <;> omega

theorem keyLt_of_lt_of_le {a b c : SegKey} (h1 : keyLt a b) (h2 : keyLe b c) : keyLt a c := by
  rcases h1 with h1 | ⟨h1, h1'⟩ <;> rcases h2 with h2 | ⟨h2, h2'⟩ <;>
    simp [keyLt] <;> omega

theorem keyLe_trans {a b c : SegKey} (h1 : keyLe a b) (h2 : keyLe b c) : keyLe a c := by
  rcases h1 with h1 | ⟨h1, h1'⟩ <;> rcases h2 with h2 | ⟨h2, h2'⟩ <;>
    simp [keyLe] <;> omega

theorem keyLe_of_lt {a b : SegKey} (h : keyLt a b) : keyLe a b := by
  rcases h with h | ⟨h, h'⟩ <;> simp [keyLe] <;> omega

/-- Totality: if `¬ (a <= b)` then `b < a`, as for Rust tuple comparison. -/
theorem keyLt_of_not_le {a b : SegKey} (h : ¬ keyLe a b) : keyLt b a := by
  simp [keyLe] at h
  rcases Nat.lt_trichotomy a.1 b.1 with h1 | h1 | h1 <;> simp [keyLt] <;> omega

theorem keyLt_ne {a b : SegKey} (h : keyLt a b) : a ≠ b := by
  intro he; subst he; exact keyLt_irrefl a h

/-! ## AES-128 key extraction and IV derivation

From `src/encryption.rs` (`Encryption::new`) and
`src/livestream/encryption.rs` (`Encryption::decrypt`).
-/

/-- Rust slice indexing `&v[..n]`: returns the first `n` elements, and
panics (modelled as `none`) when `n` exceeds the length. -/
def sliceTo (v : List Nat) (n : Nat) : Option (List Nat) :=
  if n ≤ v.length then some (v.take n) else none

/-- `Encryption` key extraction: `key.copy_from_slice(&body[..16])` on the
key server's response body (`src/encryption.rs` line 47 and
`src/livestream/encryption.rs` line 79). Panics (`none`) when the body is
shorter than 16 bytes. -/
def extractKey (body : List Nat) : Option (List Nat) :=
  sliceTo body 16

/-- `u64::to_be_bytes`: the 8 big-endian bytes of a `u64` value. -/
def u64BeBytes (n : Nat) : List Nat :=
  [n / 2 ^ 56 % 256, n / 2 ^ 48 % 256, n / 2 ^ 40 % 256, n / 2 ^ 32 % 256,
   n / 2 ^ 24 % 256, n / 2 ^ 16 % 256, n / 2 ^ 8 % 256, n % 256]

/-- IV derivation from the media-sequence number in `src/encryption.rs`
(`Encryption::new`, lines 54-57): a 16-byte zero buffer whose tail
`iv[8..]` is overwritten with `seq.to_be_bytes()`. -/
def deriveIvFromSeq (seq : Nat) : List Nat :=
  List.replicate 8 0 ++ u64BeBytes seq

/-- IV derivation in `src/livestream/encryption.rs` (`Encryption::decrypt`,
line 89): `iv[(16 - size_of_val(&seq))..]` is overwritten with
`seq.to_be_bytes()`; the offset evaluates to `16 - 8 = 8`. -/
def deriveIvFromSeqDecrypt (seq : Nat) : List Nat :=
  List.replicate (16 - 8) 0 ++ u64BeBytes seq

/-- IV selection in `Encryption::decrypt`: a key tag with an explicit IV
string uses the hex-decoded IV, otherwise the IV is derived from the
media-sequence number. Hex decoding is abstracted by `hexDecode`. -/
def ivOfSegment (hexDecode : String → Option (List Nat))
    (ivStr : Option String) (seq : Nat) : Option (List Nat) :=
  match ivStr with
  | some s => hexDecode s
  | none => some (deriveIvFromSeqDecrypt seq)

/-- The spec's description of the derived IV: the sequence number's
big-endian bytes right-aligned in a 16-byte zero-filled buffer; byte `i`
of the buffer is `N / 256 ^ (15 - i) % 256`. -/
def ivSpecBuffer (n : Nat) : List Nat :=
  (List.range 16).map (fun i => n / 256 ^ (15 - i) % 256)

theorem div_pow_eq_zero_of_lt {n k : Nat} (h : n < 2 ^ 64) (hk : 8 ≤ k) :
    n / 256 ^ k % 256 = 0 := by
  have h64 : (2 : Nat) ^ 64 ≤ 256 ^ k := by
    calc (2 : Nat) ^ 64 = 256 ^ 8 := by norm_num
    _ ≤ 256 ^ k := Nat.pow_le_pow_right (by norm_num) hk
  rw [Nat.div_eq_of_lt (lt_of_lt_of_le h h64)]

/-- C5: for a segment whose key tag supplies no explicit IV, the decryption
IV is the media-sequence number's big-endian bytes right-aligned in a
16-byte zero-filled buffer, and the two independent IV computations in the
repository (`Encryption::new` in `src/encryption.rs` and
`Encryption::decrypt` in `src/livestream/encryption.rs`) agree. -/
theorem iv_derivation_correct (hexDecode : String → Option (List Nat))
    (ivStr : Option String) (seq : Nat)
    (hno : ivStr = none) (hseq : seq < 2 ^ 64) :
    ivOfSegment hexDecode ivStr seq = some (ivSpecBuffer seq) ∧
    deriveIvFromSeqDecrypt seq = ivSpecBuffer seq ∧
    deriveIvFromSeq seq = deriveIvFromSeqDecrypt seq ∧
    (ivSpecBuffer seq).length = 16 := by
  subst hno
  have hz : ∀ k, 8 ≤ k → seq / 256 ^ k % 256 = 0 :=
    fun k hk => div_pow_eq_zero_of_lt hseq hk
  have hb : deriveIvFromSeqDecrypt seq = ivSpecBuffer seq := by
    simp only [deriveIvFromSeqDecrypt, u64BeBytes, ivSpecBuffer]
    simp only [List.range_succ, List.map_append, List.map_cons, List.map_nil]
    rw [hz 15 (by norm_num), hz 14 (by norm_num), hz 13 (by norm_num),
      hz 12 (by norm_num), hz 11 (by norm_num), hz 10 (by norm_num),
      hz 9 (by norm_num), hz 8 (by norm_num)]
    norm_num [List.replicate]
  refine ⟨?_, hb, rfl, by simp [ivSpecBuffer]⟩
  simp [ivOfSegment, hb]

/-- Witness for `iv_derivation_correct` at sequence number 7. -/
theorem iv_derivation_correct_witness :
    ivOfSegment (fun _ => none) none 7 = some (ivSpecBuffer 7) ∧
    deriveIvFromSeqDecrypt 7 = ivSpecBuffer 7 ∧
    deriveIvFromSeq 7 = deriveIvFromSeqDecrypt 7 ∧
    (ivSpecBuffer 7).length = 16 :=
  iv_derivation_correct (fun _ => none) none 7 rfl (by norm_num)

/-- C10 theorem: key extraction panics (out-of-bounds slice, modelled as
`none`) exactly when the key server's response body is shorter than 16
bytes; with at least 16 bytes it succeeds with the first 16 bytes. -/
theorem key_extraction_panics_on_short_body (body : List Nat) :
    (body.length < 16 → extractKey body = none) ∧
    (16 ≤ body.length → extractKey body = some (body.take 16)) := by
  constructor
  · intro h
    simp [extractKey, sliceTo]
    omega
  · intro h
    simp [extractKey, sliceTo, h]

/-- Witness for `key_extraction_panics_on_short_body`: a 3-byte body
panics, a 16-byte body succeeds. -/
theorem key_extraction_panics_on_short_body_witness :
    extractKey [1, 2, 3] = none ∧
    extractKey (List.replicate 16 0) = some (List.replicate 16 0) := by
  constructor
  · exact (key_extraction_panics_on_short_body [1, 2, 3]).1 (by decide)
  · have h := (key_extraction_panics_on_short_body (List.replicate 16 0)).2 (by decide)
    simpa using h

/-! ## Byte-range formatting

From `RemoteData::byte_range_string` (`src/livestream/remote_data.rs`,
lines 22-27) and `Segment::byte_range` (`src/livestream/segment.rs`,
lines 42-64); both compute `start = offset.unwrap_or(0)` and
`end = start + length.saturating_sub(1)`.
-/

/-- `m3u8_rs::ByteRange` wrapped as `HashableByteRange`: a length and an
optional offset, both `u64`. -/
structure HashableByteRange where
  length : Nat
  offset : Option Nat
deriving DecidableEq

/-- `RemoteData`: a URL plus an optional byte range. -/
structure RemoteData where
  url : String
  byteRange : Option HashableByteRange
deriving DecidableEq

/-- `RemoteData::byte_range_string`: formats the HTTP `Range` header value
for the byte range, or `none` when the resource has no byte range. -/
def RemoteData.byte_range_string (rd : RemoteData) : Option String :=
  match rd.byteRange with
  | none => none
  | some range =>
    let start := range.offset.getD 0
    let stop := start + (range.length - 1)
    some ("bytes=" ++ Nat.repr start ++ "-" ++ Nat.repr stop)

/-- C6: for a byte range of positive length, the Range header is
`bytes=start-(start+length-1)` with a missing offset defaulting to 0, and
the inclusive endpoints agree with the half-open span
`[offset, offset+length)`. -/
theorem byte_range_string_correct (u : String) (off : Option Nat) (len : Nat)
    (hlen : 0 < len) :
    (RemoteData.byte_range_string ⟨u, some ⟨len, off⟩⟩ =
      some ("bytes=" ++ Nat.repr (off.getD 0) ++ "-" ++
        Nat.repr (off.getD 0 + len - 1))) ∧
    (∀ i : Nat, (off.getD 0 ≤ i ∧ i ≤ off.getD 0 + len - 1) ↔
      (off.getD 0 ≤ i ∧ i < off.getD 0 + len)) := by
  constructor
  · have he : off.getD 0 + (len - 1) = off.getD 0 + len - 1 := by omega
    simp only [RemoteData.byte_range_string, he]
  · intro i
    omega

/-- Witness for `byte_range_string_correct`: offset 100, length 50 yields
`bytes=100-149`, and a missing offset defaults to 0. -/
theorem byte_range_string_correct_witness :
    RemoteData.byte_range_string ⟨"u", some ⟨50, some 100⟩⟩ = some "bytes=100-149" ∧
    RemoteData.byte_range_string ⟨"u", some ⟨50, none⟩⟩ = some "bytes=0-49" := by
  constructor
  · have h := (byte_range_string_correct "u" (some 100) 50 (by decide)).1
    simpa using h
  · have h := (byte_range_string_correct "u" none 50 (by decide)).1
    simpa using h


/-! ## Netscape cookie-file parsing

From `CookieJar::parse_from_file` and `parse_cookie`
(`src/livestream/cookies.rs`, lines 18-53). String manipulation is
modelled on the underlying character lists; `Url::parse` on the derived
`https://` string is abstracted by a `urlOk` predicate.
-/

/-- Rust `line.split('\t')`: split a character list at every tab, keeping
empty pieces, as `str::split` does. -/
def splitOnTab : List Char → List (List Char)
  | [] => [[]]
  | c :: rest =>
    let r := splitOnTab rest
    if c = '\t' then [] :: r
    else
      match r with
      | [] => [[c]]
      | p :: ps => (c :: p) :: ps

/-- Rust `str::trim`: drop whitespace from both ends. -/
def trimChars (cs : List Char) : List Char :=
  ((cs.dropWhile Char.isWhitespace).reverse.dropWhile Char.isWhitespace).reverse

/-- Whether `parse_from_file` skips the line before parsing: blank lines
and comment lines (`line.trim().is_empty() || line.trim().starts_with('#')`,
`src/livestream/cookies.rs` line 26). -/
def skippedLine (line : String) : Bool :=
  (trimChars line.data).isEmpty || (trimChars line.data).headD ' ' = '#'

/-- `parse_cookie` (`src/livestream/cookies.rs` lines 44-53): a line with
exactly 7 tab-separated fields yields `(domain url, "name=value")` where
the domain has its leading dots stripped and is prefixed with `https://`;
any other shape, or a domain the URL parser rejects, is an error carrying
the offending line. -/
def parse_cookie (urlOk : String → Bool) (line : String) : Except String (String × String) :=
  match splitOnTab line.data with
  | [domain, _, _, _, _, name, value] =>
    let dom : String := "https://" ++ String.mk (domain.dropWhile (· = '.'))
    if urlOk dom then Except.ok (dom, String.mk name ++ "=" ++ String.mk value)
    else Except.error line
  | _ => Except.error line

/-- The loop body of `CookieJar::parse_from_file` (lines 23-38), folded
over the file's lines: collects the parsed cookies and, separately, the
lines that were skipped with a warning. Malformed lines land in the
warning list and parsing continues. -/
def parse_from_file_go (urlOk : String → Bool) : List String → List (String × String) × List String
  | [] => ([], [])
  | line :: rest =>
    let acc := parse_from_file_go urlOk rest
    if skippedLine line then acc
    else
      match parse_cookie urlOk line with
      | Except.ok c => (c :: acc.1, acc.2)
      | Except.error e => (acc.1, e :: acc.2)

/-- `CookieJar::parse_from_file` over an already-read list of lines: the
function's only error paths in the source are file I/O (outside this
model); cookie parse failures never surface as errors. -/
def parse_from_file (urlOk : String → Bool) (lines : List String) :
    Except String (List (String × String) × List String) :=
  Except.ok (parse_from_file_go urlOk lines)

/-- C7: a well-formed 7-field line yields the cookie `name=value` bound to
the `https` URL derived from the dot-stripped domain; a line that does not
split into exactly 7 fields is an error that `parse_from_file` turns into
a warning, never into a failure of the whole parse. -/
theorem cookie_parsing_correct (urlOk : String → Bool) :
    (∀ line d f1 f2 f3 f4 n v,
      splitOnTab line.data = [d, f1, f2, f3, f4, n, v] →
      urlOk ("https://" ++ String.mk (d.dropWhile (· = '.'))) = true →
      parse_cookie urlOk line =
        Except.ok ("https://" ++ String.mk (d.dropWhile (· = '.')),
          String.mk n ++ "=" ++ String.mk v)) ∧
    (∀ line, (splitOnTab line.data).length ≠ 7 →
      parse_cookie urlOk line = Except.error line) ∧
    (∀ lines, parse_from_file urlOk lines =
      Except.ok (parse_from_file_go urlOk lines)) ∧
    (∀ lines line, line ∈ lines → skippedLine line = false →
      parse_cookie urlOk line = Except.error line →
      line ∈ (parse_from_file_go urlOk lines).2) := by
  refine ⟨?_, ?_, fun _ => rfl, ?_⟩
  · intro line d f1 f2 f3 f4 n v hsplit hok
    simp [parse_cookie, hsplit, hok]
  · intro line hlen
    unfold parse_cookie
    rcases h : splitOnTab line.data with _ | ⟨a, _ | ⟨b, _ | ⟨c, _ | ⟨d, _ | ⟨e, _ | ⟨f, _ | ⟨g, rest⟩⟩⟩⟩⟩⟩⟩ <;>
      simp_all
  · intro lines
    induction lines with
    | nil => intro line hmem; cases hmem
    | cons l ls ih =>
      intro line hmem hskip herr
      rcases List.mem_cons.mp hmem with hmem | hmem
      · subst hmem
        simp [parse_from_file_go, hskip, herr]
      · have hin := ih line hmem hskip herr
        unfold parse_from_file_go
        by_cases hs : skippedLine l
        · simpa [hs] using hin
        · rcases hp : parse_cookie urlOk l with e | c <;> simp [hs, hp, hin]

/-- Witness for `cookie_parsing_correct`: a well-formed line for
`.example.com` with cookie `foo=bar`, and a malformed 2-field line that is
recorded as a warning while parsing succeeds overall. -/
theorem cookie_parsing_correct_witness :
    parse_cookie (fun _ => true) ".example.com\tTRUE\t/\tFALSE\t0\tfoo\tbar" =
      Except.ok ("https://example.com", "foo=bar") ∧
    parse_cookie (fun _ => true) "bad\tline" = Except.error "bad\tline" ∧
    parse_from_file (fun _ => true) ["bad\tline"] =
      Except.ok (parse_from_file_go (fun _ => true) ["bad\tline"]) ∧
    "bad\tline" ∈ (parse_from_file_go (fun _ => true) ["bad\tline"]).2 := by
  have h := cookie_parsing_correct (fun _ => true)
  refine ⟨?_, ?_, h.2.2.1 _, ?_⟩
  · have hx := h.1 ".example.com\tTRUE\t/\tFALSE\t0\tfoo\tbar"
      ".example.com".data "TRUE".data "/".data "FALSE".data "0".data "foo".data "bar".data
      (by decide) (by decide)
    have he : ("https://" ++ String.mk (".example.com".data.dropWhile (· = '.')),
        String.mk "foo".data ++ "=" ++ String.mk "bar".data) =
        ("https://example.com", "foo=bar") := by decide
    exact he ▸ hx
  · exact h.2.1 "bad\tline" (by decide)
  · exact h.2.2.2 ["bad\tline"] "bad\tline" (by simp) (by decide) (h.2.1 _ (by decide))

/-! ## Variant selection from a master playlist

From `Livestream::new` (`src/livestream/mod.rs`, lines 136-161): when no
interactive chooser is requested, the variant with the numerically
largest parseable bandwidth is selected and its URI inserted as the
`Main` stream.
-/

/-- A master-playlist variant: its bandwidth attribute (a string in
`m3u8_rs`) and its URI. -/
structure VariantStream where
  bandwidth : String
  uri : String
deriving DecidableEq

/-- Rust `str::parse::<u64>()`: an optional leading `+`, then one or more
ASCII digits, with the value required to fit in a `u64`. -/
def parseU64 (s : String) : Option Nat :=
  let cs := match s.data with
    | '+' :: rest => rest
    | cs => cs
  if cs.isEmpty then none
  else if cs.all (fun c => c.isDigit) then
    let n := cs.foldl (fun acc c => acc * 10 + (c.toNat - '0'.toNat)) 0
    if n < 2 ^ 64 then some n else none
  else none

/-- Rust `Iterator::max_by_key` on the `(bandwidth, variant)` pairs:
returns the last maximal element, `none` on an empty iterator. -/
def maxByBandwidth : List (Nat × VariantStream) → Option (Nat × VariantStream)
  | [] => none
  | x :: xs => some (xs.foldl (fun acc y => if acc.1 ≤ y.1 then y else acc) x)

/-- The stream-selection expression of `Livestream::new` (lines 137-158):
with `choose_stream` false, filter the variants to those whose bandwidth
parses as a `u64` and keep the one with the largest bandwidth. The
interactive chooser branch is outside this model (`none`). -/
def pickVariant (choose_stream : Bool) (variants : List VariantStream) :
    Option VariantStream :=
  if choose_stream then none
  else
    (maxByBandwidth
      (variants.filterMap (fun v => (parseU64 v.bandwidth).map (fun b => (b, v))))).map
      (fun x => x.2)

/-- The URI inserted for `Stream::Main` (line 161). -/
def mainStreamUri (choose_stream : Bool) (variants : List VariantStream) : Option String :=
  (pickVariant choose_stream variants).map (fun v => v.uri)

theorem maxBy_foldl_spec (xs : List (Nat × VariantStream)) :
    ∀ acc : Nat × VariantStream,
      (xs.foldl (fun acc y => if acc.1 ≤ y.1 then y else acc) acc = acc ∨
        xs.foldl (fun acc y => if acc.1 ≤ y.1 then y else acc) acc ∈ xs) ∧
      acc.1 ≤ (xs.foldl (fun acc y => if acc.1 ≤ y.1 then y else acc) acc).1 ∧
      ∀ y ∈ xs, y.1 ≤ (xs.foldl (fun acc y => if acc.1 ≤ y.1 then y else acc) acc).1 := by
  induction xs with
  | nil => intro acc; exact ⟨Or.inl rfl, le_refl _, by simp⟩
  | cons x xs ih =>
    intro acc
    by_cases hc : acc.1 ≤ x.1
    · have h := ih x
      simp only [List.foldl_cons, if_pos hc]
      refine ⟨?_, le_trans hc h.2.1, ?_⟩
      · rcases h.1 with h1 | h1
        · exact Or.inr (by simp [h1])
        · exact Or.inr (by simp [h1])
      · intro y hy
        rcases List.mem_cons.mp hy with hy | hy
        · subst hy; exact h.2.1
        · exact h.2.2 y hy
    · have h := ih acc
      simp only [List.foldl_cons, if_neg hc]
      refine ⟨?_, h.2.1, ?_⟩
      · rcases h.1 with h1 | h1
        · exact Or.inl h1
        · exact Or.inr (by simp [h1])
      · intro y hy
        rcases List.mem_cons.mp hy with hy | hy
        · subst hy; omega
        · exact h.2.2 y hy

/-- C8: when no interactive chooser is requested, the selected variant is
one of the input variants, its bandwidth parses as an integer, and that
integer is the maximum over all variants with parseable bandwidth; its
URI becomes the `Main` stream's URI. -/
theorem highest_bandwidth_selected (variants : List VariantStream) (v : VariantStream)
    (h : pickVariant false variants = some v) :
    v ∈ variants ∧
    mainStreamUri false variants = some v.uri ∧
    ∃ b, parseU64 v.bandwidth = some b ∧
      ∀ w ∈ variants, ∀ bw, parseU64 w.bandwidth = some bw → bw ≤ b := by
  have hmain : mainStreamUri false variants = some v.uri := by
    simp [mainStreamUri, h]
  simp only [pickVariant, if_neg (by simp : ¬ (false : Bool) = true)] at h
  rcases hf : variants.filterMap (fun v => (parseU64 v.bandwidth).map (fun b => (b, v))) with
    _ | ⟨x, xs⟩
  · rw [hf] at h; simp [maxByBandwidth] at h
  · rw [hf] at h
    simp only [maxByBandwidth] at h
    rw [Option.map_eq_some'] at h
    rcases h with ⟨r, hreq, hrv⟩
    rw [Option.some_inj] at hreq
    have hs := maxBy_foldl_spec xs x
    rw [hreq] at hs
    have hrmem : r ∈ x :: xs := by
      rcases hs.1 with h1 | h1
      · simp [h1]
      · simp [h1]
    have hrf : r ∈ variants.filterMap
        (fun v => (parseU64 v.bandwidth).map (fun b => (b, v))) := by
      rw [hf]; exact hrmem
    rcases List.mem_filterMap.mp hrf with ⟨w, hwmem, hweq⟩
    rcases ho : parseU64 w.bandwidth with _ | b
    · simp [ho] at hweq
    · simp only [ho] at hweq
      rw [Option.map_eq_some'] at hweq
      rcases hweq with ⟨b2, hb2, hbw⟩
      rw [Option.some_inj] at hb2
      subst hb2
      have hv : v = w := by rw [← hrv, ← hbw]
      have hrb : r.1 = b := by rw [← hbw]
      subst hv
      refine ⟨hwmem, hmain, b, by rw [← hrv, ← hbw]; exact ho, ?_⟩
      intro u humem bu hu
      have hum : (bu, u) ∈ x :: xs := by
        rw [← hf]
        exact List.mem_filterMap.mpr ⟨u, humem, by simp [hu]⟩
      rcases List.mem_cons.mp hum with h1 | h1
      · have := hs.2.1
        rw [← h1] at this
        omega
      · have := hs.2.2 _ h1
        omega

/-- Witness for `highest_bandwidth_selected`: variants at bandwidths
500000 and 2000000; the 2000000 variant's URI becomes `Main`. -/
theorem highest_bandwidth_selected_witness :
    pickVariant false [⟨"500000", "low.m3u8"⟩, ⟨"2000000", "high.m3u8"⟩] =
      some ⟨"2000000", "high.m3u8"⟩ ∧
    (⟨"2000000", "high.m3u8"⟩ : VariantStream) ∈
      [(⟨"500000", "low.m3u8"⟩ : VariantStream), ⟨"2000000", "high.m3u8"⟩] ∧
    mainStreamUri false [⟨"500000", "low.m3u8"⟩, ⟨"2000000", "high.m3u8"⟩] =
      some "high.m3u8" ∧
    ∃ b, parseU64 "2000000" = some b ∧
      ∀ w ∈ [(⟨"500000", "low.m3u8"⟩ : VariantStream), ⟨"2000000", "high.m3u8"⟩],
        ∀ bw, parseU64 w.bandwidth = some bw → bw ≤ b := by
  have hpick : pickVariant false [⟨"500000", "low.m3u8"⟩, ⟨"2000000", "high.m3u8"⟩] =
      some ⟨"2000000", "high.m3u8"⟩ := by decide
  have h := highest_bandwidth_selected
    [⟨"500000", "low.m3u8"⟩, ⟨"2000000", "high.m3u8"⟩] ⟨"2000000", "high.m3u8"⟩ hpick
  exact ⟨hpick, h.1, h.2.1, h.2.2⟩

/-! ## The playlist poller

From `m3u8_fetcher` (`src/livestream/playlist_fetcher.rs`, lines 16-144).
Each poll cycle walks the fetched media playlist's segments, skipping
every segment whose `(discon_seq, seq)` key is `<=` the poller's
`last_seg`, and sends the new segments over the channel. The network,
logging and timing effects are outside the model; an encryption-resolution
failure or a closed channel only truncates the emission list to a prefix,
which preserves every property proved below.
-/

/-- The fields of an `m3u8_rs::MediaSegment` the poller reads: the
segment URI, the discontinuity flag and the initialization (map) tag's
URI, if any. -/
structure MediaSegment where
  uri : String
  discontinuity : Bool
  map : Option String
deriving DecidableEq

/-- The fields of an `m3u8_rs::MediaPlaylist` the poller reads. -/
structure MediaPlaylist where
  media_sequence : Nat
  discontinuity_sequence : Nat
  segments : List MediaSegment
  end_list : Bool
deriving DecidableEq

/-- An item sent on the poller's channel: an initialization segment or a
sequence segment with its `(discon_seq, seq)` key. -/
inductive PollItem where
  | initSeg (uri : String)
  | seqSeg (key : SegKey) (uri : String)
deriving DecidableEq

/-- The poller's mutable locals that survive across poll cycles:
`last_seg` and `init_downloaded` (`playlist_fetcher.rs` lines 23-24). -/
structure FetcherState where
  last_seg : Option SegKey
  init_downloaded : Bool
deriving DecidableEq

/-- The skip test (`playlist_fetcher.rs` lines 48-52):
`if let Some(s) = last_seg { if s >= (discon_seq, seq) { continue } }`. -/
def alreadySeen (last : Option SegKey) (k : SegKey) : Bool :=
  match last with
  | none => false
  | some s => decide (keyLe k s)

/-- One poll cycle's loop over the playlist's segments
(`playlist_fetcher.rs` lines 37-112), with the running media-sequence
number `seq`, the discontinuity offset `dOff` and the poller state. -/
def m3u8CycleGo (dbase : Nat) : List MediaSegment → Nat → Nat → FetcherState →
    List PollItem × FetcherState
  | [], _, _, st => ([], st)
  | s :: rest, seq, dOff, st =>
    let dOff' := if s.discontinuity then dOff + 1 else dOff
    let d := dbase + dOff'
    if alreadySeen st.last_seg (d, seq) then
      m3u8CycleGo dbase rest (seq + 1) dOff' st
    else
      let st1 : FetcherState := ⟨some (d, seq), st.init_downloaded⟩
      match st1.init_downloaded, s.map with
      | false, some u =>
        let r := m3u8CycleGo dbase rest (seq + 1) dOff' ⟨st1.last_seg, true⟩
        (PollItem.initSeg u :: PollItem.seqSeg (d, seq) s.uri :: r.1, r.2)
      | _, _ =>
        let r := m3u8CycleGo dbase rest (seq + 1) dOff' st1
        (PollItem.seqSeg (d, seq) s.uri :: r.1, r.2)

/-- One poll cycle over a fetched playlist: the loop starts at the
playlist's `media_sequence` with discontinuity offset 0
(`playlist_fetcher.rs` lines 37-39). -/
def m3u8FetcherCycle (pl : MediaPlaylist) (st : FetcherState) :
    List PollItem × FetcherState :=
  m3u8CycleGo pl.discontinuity_sequence pl.segments pl.media_sequence 0 st

/-- A whole polling session: the items emitted over successive poll
cycles, each cycle seeing one fetched playlist; the loop exits after a
cycle whose playlist has `end_list` set (`playlist_fetcher.rs`
lines 114-118). -/
def m3u8FetcherSession : List MediaPlaylist → FetcherState → List PollItem
  | [], _ => []
  | pl :: rest, st =>
    let r := m3u8FetcherCycle pl st
    r.1 ++ (if pl.end_list then [] else m3u8FetcherSession rest r.2)

/-- The items a fresh poller (`last_seg = None`, `init_downloaded = false`)
emits over a session. -/
def sessionItems (pls : List MediaPlaylist) : List PollItem :=
  m3u8FetcherSession pls ⟨none, false⟩

/-- The key of a sequence item. -/
def itemKey : PollItem → Option SegKey
  | PollItem.initSeg _ => none
  | PollItem.seqSeg k _ => some k

/-- The sequence-segment keys emitted over a session, in emission order. -/
def sessionKeys (pls : List MediaPlaylist) : List SegKey :=
  (sessionItems pls).filterMap itemKey

/-- The initialization URI of an initialization item. -/
def itemInitUri : PollItem → Option String
  | PollItem.initSeg u => some u
  | PollItem.seqSeg _ _ => none

/-- The initialization-segment URIs emitted over a session. -/
def emittedInits (pls : List MediaPlaylist) : List String :=
  (sessionItems pls).filterMap itemInitUri

/-- `last < k`, where a `last` of `none` is below everything. -/
def optKeyLt (last : Option SegKey) (k : SegKey) : Prop :=
  match last with
  | none => True
  | some s => keyLt s k

/-- Order on optional keys: `none` is a bottom element. -/
def optKeyLe : Option SegKey → Option SegKey → Prop
  | none, _ => True
  | some _, none => False
  | some x, some y => keyLe x y

theorem optKeyLt_of_not_seen {last : Option SegKey} {k : SegKey}
    (h : alreadySeen last k = false) : optKeyLt last k := by
  cases last with
  | none => trivial
  | some s =>
    simp only [alreadySeen, decide_eq_false_iff_not] at h
    exact keyLt_of_not_le h

theorem optKeyLt_le_trans {a : Option SegKey} {m k : SegKey}
    (h1 : optKeyLe a (some m)) (h2 : keyLt m k) : optKeyLt a k := by
  cases a with
  | none => trivial
  | some s => exact keyLt_of_le_of_lt h1 h2

theorem m3u8CycleGo_key_spec (dbase : Nat) (segs : List MediaSegment) :
    ∀ seq dOff st,
      List.Pairwise keyLt ((m3u8CycleGo dbase segs seq dOff st).1.filterMap itemKey) ∧
      (∀ k ∈ (m3u8CycleGo dbase segs seq dOff st).1.filterMap itemKey,
        optKeyLt st.last_seg k) ∧
      optKeyLe st.last_seg (m3u8CycleGo dbase segs seq dOff st).2.last_seg ∧
      (∀ k ∈ (m3u8CycleGo dbase segs seq dOff st).1.filterMap itemKey,
        optKeyLe (some k) (m3u8CycleGo dbase segs seq dOff st).2.last_seg) := by
  induction segs with
  | nil =>
    intro seq dOff st
    refine ⟨by simp [m3u8CycleGo], by simp [m3u8CycleGo], ?_, by simp [m3u8CycleGo]⟩
    simp only [m3u8CycleGo]
    cases h : st.last_seg with
    | none => trivial
    | some s => simp [optKeyLe, h, keyLe]
  | cons s rest ih =>
    intro seq dOff st
    by_cases hseen : alreadySeen st.last_seg
      (dbase + (if s.discontinuity then dOff + 1 else dOff), seq) = true
    · have heq : m3u8CycleGo dbase (s :: rest) seq dOff st =
          m3u8CycleGo dbase rest (seq + 1) (if s.discontinuity then dOff + 1 else dOff) st := by
        simp only [m3u8CycleGo, hseen, if_true]
      rw [heq]
      exact ih (seq + 1) (if s.discontinuity then dOff + 1 else dOff) st
    · rw [Bool.not_eq_true] at hseen
      have hlt : optKeyLt st.last_seg
          (dbase + (if s.discontinuity then dOff + 1 else dOff), seq) :=
        optKeyLt_of_not_seen hseen
      -- both emit branches recurse with a state whose last_seg is the new key
      have hbranch : ∃ items2,
          (m3u8CycleGo dbase (s :: rest) seq dOff st).1 =
            items2 ++ PollItem.seqSeg
              (dbase + (if s.discontinuity then dOff + 1 else dOff), seq) s.uri ::
              (m3u8CycleGo dbase rest (seq + 1) (if s.discontinuity then dOff + 1 else dOff)
                ⟨some (dbase + (if s.discontinuity then dOff + 1 else dOff), seq),
                  st.init_downloaded || !s.map.isNone⟩).1 ∧
          (m3u8CycleGo dbase (s :: rest) seq dOff st).2 =
            (m3u8CycleGo dbase rest (seq + 1) (if s.discontinuity then dOff + 1 else dOff)
              ⟨some (dbase + (if s.discontinuity then dOff + 1 else dOff), seq),
                st.init_downloaded || !s.map.isNone⟩).2 ∧
          items2.filterMap itemKey = [] := by
        rcases hid : st.init_downloaded with _ | _ <;> rcases hmap : s.map with _ | u
        · exact ⟨[], by simp [m3u8CycleGo, hseen, hid, hmap, itemKey], by
            simp [m3u8CycleGo, hseen, hid, hmap], rfl⟩
        · exact ⟨[PollItem.initSeg u], by simp [m3u8CycleGo, hseen, hid, hmap, itemKey], by
            simp [m3u8CycleGo, hseen, hid, hmap], by simp [itemKey]⟩
        · exact ⟨[], by simp [m3u8CycleGo, hseen, hid, hmap, itemKey], by
            simp [m3u8CycleGo, hseen, hid, hmap], rfl⟩
        · exact ⟨[], by simp [m3u8CycleGo, hseen, hid, hmap, itemKey], by
            simp [m3u8CycleGo, hseen, hid, hmap], rfl⟩
      rcases hbranch with ⟨items2, hitems, hst, hik⟩
      rcases ih (seq + 1) (if s.discontinuity then dOff + 1 else dOff)
        ⟨some (dbase + (if s.discontinuity then dOff + 1 else dOff), seq),
          st.init_downloaded || !s.map.isNone⟩ with ⟨ihp, ihgt, ihle, ihub⟩
      rw [hitems, hst]
      rw [List.filterMap_append, hik, List.nil_append]
      simp only [List.filterMap_cons, itemKey] at *
      constructor
      · refine List.pairwise_cons.mpr ⟨?_, ihp⟩
        intro k hk
        exact ihgt k hk
      refine ⟨?_, ?_, ?_⟩
      · intro k hk
        rcases List.mem_cons.mp hk with hk | hk
        · subst hk; exact hlt
        · have := ihgt k hk
          simp only [optKeyLt] at this
          exact optKeyLt_le_trans (by
            cases hl : st.last_seg with
            | none => trivial
            | some x =>
              simp only [optKeyLe]
              rw [hl] at hlt
              exact keyLe_of_lt hlt) this
      · have hstep : optKeyLe st.last_seg
            (some (dbase + (if s.discontinuity then dOff + 1 else dOff), seq)) := by
          cases hl : st.last_seg with
          | none => trivial
          | some x =>
            rw [hl] at hlt
            exact keyLe_of_lt hlt
        cases hl2 : (m3u8CycleGo dbase rest (seq + 1)
            (if s.discontinuity then dOff + 1 else dOff)
            ⟨some (dbase + (if s.discontinuity then dOff + 1 else dOff), seq),
              st.init_downloaded || !s.map.isNone⟩).2.last_seg with
        | none => rw [hl2] at ihle; simp [optKeyLe] at ihle
        | some m =>
          rw [hl2] at ihle
          cases hl : st.last_seg with
          | none => trivial
          | some x =>
            rw [hl] at hstep
            simp only [optKeyLe] at *
            exact keyLe_trans hstep ihle
      · intro k hk
        rcases List.mem_cons.mp hk with hk | hk
        · subst hk
          exact ihle
        · exact ihub k hk

theorem m3u8FetcherSession_key_spec (pls : List MediaPlaylist) :
    ∀ st,
      List.Pairwise keyLt ((m3u8FetcherSession pls st).filterMap itemKey) ∧
      (∀ k ∈ (m3u8FetcherSession pls st).filterMap itemKey, optKeyLt st.last_seg k) := by
  induction pls with
  | nil => intro st; simp [m3u8FetcherSession]
  | cons pl rest ih =>
    intro st
    rcases m3u8CycleGo_key_spec pl.discontinuity_sequence pl.segments
      pl.media_sequence 0 st with ⟨cp, cgt, cle, cub⟩
    simp only [m3u8FetcherSession, m3u8FetcherCycle] at *
    rw [List.filterMap_append]
    by_cases hend : pl.end_list
    · simp only [hend, if_true, List.filterMap_nil, List.append_nil]
      exact ⟨cp, cgt⟩
    · simp only [hend, if_false]
      rcases ih (m3u8CycleGo pl.discontinuity_sequence pl.segments
        pl.media_sequence 0 st).2 with ⟨rp, rgt⟩
      constructor
      · rw [List.pairwise_append]
        refine ⟨cp, rp, ?_⟩
        intro a ha b hb
        have hub := cub a ha
        cases hl : (m3u8CycleGo pl.discontinuity_sequence pl.segments
            pl.media_sequence 0 st).2.last_seg with
        | none => rw [hl] at hub; simp [optKeyLe] at hub
        | some m =>
          rw [hl] at hub
          have hgt := rgt b hb
          rw [hl] at hgt
          simp only [optKeyLe, optKeyLt] at *
          exact keyLt_of_le_of_lt hub hgt
      · intro k hk
        rcases List.mem_append.mp hk with hk | hk
        · exact cgt k hk
        · have hgt := rgt k hk
          cases hl : (m3u8CycleGo pl.discontinuity_sequence pl.segments
              pl.media_sequence 0 st).2.last_seg with
          | none =>
            rw [hl] at hgt cle
            cases hls : st.last_seg with
            | none => trivial
            | some x => rw [hls] at cle; simp [optKeyLe] at cle
          | some m =>
            rw [hl] at hgt cle
            simp only [optKeyLt] at hgt
            exact optKeyLt_le_trans cle hgt

/-- C1: over a whole polling session — any list of successively fetched
playlists, however much their contents overlap — the sequence-segment
keys a poller emits to the shared channel are strictly increasing in the
lexicographic `(discon_seq, seq)` order, so a later emission always has a
strictly greater key and no key is ever emitted twice. -/
theorem m3u8_fetcher_keys_strictly_increasing (pls : List MediaPlaylist) :
    List.Pairwise keyLt (sessionKeys pls) ∧ (sessionKeys pls).Nodup := by
  have h := (m3u8FetcherSession_key_spec pls ⟨none, false⟩).1
  refine ⟨h, ?_⟩
  exact List.Pairwise.imp (fun hab => keyLt_ne hab) h

/-! ## Initialization segments

`m3u8_fetcher` guards initialization emission with the `init_downloaded`
flag (`playlist_fetcher.rs` lines 24, 63-86): the flag is set when the
first map declaration on a newly emitted segment is sent, and is never
reset, so later map declarations are ignored for the rest of the session.
The downloader side (`fetch_segment`, `src/livestream/mod.rs` lines
319-372) prepends the initialization bytes attached to a segment — served
from the per-track LRU cache or fetched — to the decrypted payload.
-/

theorem m3u8CycleGo_init_spec (dbase : Nat) (segs : List MediaSegment) :
    ∀ seq dOff st,
      (st.init_downloaded = true →
        (m3u8CycleGo dbase segs seq dOff st).1.filterMap itemInitUri = [] ∧
        (m3u8CycleGo dbase segs seq dOff st).2.init_downloaded = true) ∧
      ((m3u8CycleGo dbase segs seq dOff st).1.filterMap itemInitUri).length ≤ 1 ∧
      ((m3u8CycleGo dbase segs seq dOff st).2.init_downloaded = false →
        st.init_downloaded = false ∧
        (m3u8CycleGo dbase segs seq dOff st).1.filterMap itemInitUri = []) := by
  induction segs with
  | nil =>
    intro seq dOff st
    exact ⟨fun h => ⟨by simp [m3u8CycleGo], by simp [m3u8CycleGo, h]⟩,
      by simp [m3u8CycleGo], fun h => ⟨by simpa [m3u8CycleGo] using h, by simp [m3u8CycleGo]⟩⟩
  | cons s rest ih =>
    intro seq dOff st
    by_cases hseen : alreadySeen st.last_seg
        (dbase + (if s.discontinuity then dOff + 1 else dOff), seq) = true
    · have heq : m3u8CycleGo dbase (s :: rest) seq dOff st =
          m3u8CycleGo dbase rest (seq + 1) (if s.discontinuity then dOff + 1 else dOff) st := by
        simp only [m3u8CycleGo, hseen, if_true]
      rw [heq]
      exact ih (seq + 1) (if s.discontinuity then dOff + 1 else dOff) st
    · rw [Bool.not_eq_true] at hseen
      rcases hid : st.init_downloaded with _ | _ <;> rcases hmap : s.map with _ | u
      · have heq : (m3u8CycleGo dbase (s :: rest) seq dOff st).1 =
            PollItem.seqSeg (dbase + (if s.discontinuity then dOff + 1 else dOff), seq) s.uri ::
              (m3u8CycleGo dbase rest (seq + 1) (if s.discontinuity then dOff + 1 else dOff)
                ⟨some (dbase + (if s.discontinuity then dOff + 1 else dOff), seq), false⟩).1 ∧
            (m3u8CycleGo dbase (s :: rest) seq dOff st).2 =
              (m3u8CycleGo dbase rest (seq + 1) (if s.discontinuity then dOff + 1 else dOff)
                ⟨some (dbase + (if s.discontinuity then dOff + 1 else dOff), seq), false⟩).2 := by
          constructor <;> simp [m3u8CycleGo, hseen, hid, hmap]
        rcases ih (seq + 1) (if s.discontinuity then dOff + 1 else dOff)
          ⟨some (dbase + (if s.discontinuity then dOff + 1 else dOff), seq), false⟩ with
          ⟨ih1, ih2, ih3⟩
        rw [heq.1, heq.2]
        simp only [List.filterMap_cons, itemInitUri]
        exact ⟨fun h => absurd h (by simp [hid]), ih2, fun h => ⟨trivial, (ih3 h).2⟩⟩
      · have heq : (m3u8CycleGo dbase (s :: rest) seq dOff st).1 =
            PollItem.initSeg u ::
            PollItem.seqSeg (dbase + (if s.discontinuity then dOff + 1 else dOff), seq) s.uri ::
              (m3u8CycleGo dbase rest (seq + 1) (if s.discontinuity then dOff + 1 else dOff)
                ⟨some (dbase + (if s.discontinuity then dOff + 1 else dOff), seq), true⟩).1 ∧
            (m3u8CycleGo dbase (s :: rest) seq dOff st).2 =
              (m3u8CycleGo dbase rest (seq + 1) (if s.discontinuity then dOff + 1 else dOff)
                ⟨some (dbase + (if s.discontinuity then dOff + 1 else dOff), seq), true⟩).2 := by
          constructor <;> simp [m3u8CycleGo, hseen, hid, hmap]
        rcases ih (seq + 1) (if s.discontinuity then dOff + 1 else dOff)
          ⟨some (dbase + (if s.discontinuity then dOff + 1 else dOff), seq), true⟩ with
          ⟨ih1, ih2, ih3⟩
        rw [heq.1, heq.2]
        simp only [List.filterMap_cons, itemInitUri]
        refine ⟨fun h => absurd h (by simp [hid]), ?_, ?_⟩
        · simp [(ih1 rfl).1]
        · intro h
          rw [(ih1 rfl).2] at h
          cases h
      · have heq : (m3u8CycleGo dbase (s :: rest) seq dOff st).1 =
            PollItem.seqSeg (dbase + (if s.discontinuity then dOff + 1 else dOff), seq) s.uri ::
              (m3u8CycleGo dbase rest (seq + 1) (if s.discontinuity then dOff + 1 else dOff)
                ⟨some (dbase + (if s.discontinuity then dOff + 1 else dOff), seq), true⟩).1 ∧
            (m3u8CycleGo dbase (s :: rest) seq dOff st).2 =
              (m3u8CycleGo dbase rest (seq + 1) (if s.discontinuity then dOff + 1 else dOff)
                ⟨some (dbase + (if s.discontinuity then dOff + 1 else dOff), seq), true⟩).2 := by
          constructor <;> simp [m3u8CycleGo, hseen, hid, hmap]
        rcases ih (seq + 1) (if s.discontinuity then dOff + 1 else dOff)
          ⟨some (dbase + (if s.discontinuity then dOff + 1 else dOff), seq), true⟩ with
          ⟨ih1, ih2, ih3⟩
        rw [heq.1, heq.2]
        simp only [List.filterMap_cons, itemInitUri]
        refine ⟨fun _ => ⟨(ih1 rfl).1, (ih1 rfl).2⟩, ?_, ?_⟩
        · simp [(ih1 rfl).1]
        · intro h
          rw [(ih1 rfl).2] at h
          cases h
      · have heq : (m3u8CycleGo dbase (s :: rest) seq dOff st).1 =
            PollItem.seqSeg (dbase + (if s.discontinuity then dOff + 1 else dOff), seq) s.uri ::
              (m3u8CycleGo dbase rest (seq + 1) (if s.discontinuity then dOff + 1 else dOff)
                ⟨some (dbase + (if s.discontinuity then dOff + 1 else dOff), seq), true⟩).1 ∧
            (m3u8CycleGo dbase (s :: rest) seq dOff st).2 =
              (m3u8CycleGo dbase rest (seq + 1) (if s.discontinuity then dOff + 1 else dOff)
                ⟨some (dbase + (if s.discontinuity then dOff + 1 else dOff), seq), true⟩).2 := by
          constructor <;> simp [m3u8CycleGo, hseen, hid, hmap]
        rcases ih (seq + 1) (if s.discontinuity then dOff + 1 else dOff)
          ⟨some (dbase + (if s.discontinuity then dOff + 1 else dOff), seq), true⟩ with
          ⟨ih1, ih2, ih3⟩
        rw [heq.1, heq.2]
        simp only [List.filterMap_cons, itemInitUri]
        refine ⟨fun _ => ⟨(ih1 rfl).1, (ih1 rfl).2⟩, ?_, ?_⟩
        · simp [(ih1 rfl).1]
        · intro h
          rw [(ih1 rfl).2] at h
          cases h

theorem m3u8FetcherSession_init_spec (pls : List MediaPlaylist) :
    ∀ st,
      (st.init_downloaded = true →
        (m3u8FetcherSession pls st).filterMap itemInitUri = []) ∧
      ((m3u8FetcherSession pls st).filterMap itemInitUri).length ≤ 1 := by
  induction pls with
  | nil => intro st; simp [m3u8FetcherSession]
  | cons pl rest ih =>
    intro st
    rcases m3u8CycleGo_init_spec pl.discontinuity_sequence pl.segments
      pl.media_sequence 0 st with ⟨c1, c2, c3⟩
    simp only [m3u8FetcherSession, m3u8FetcherCycle] at *
    rw [List.filterMap_append]
    by_cases hend : pl.end_list
    · rw [if_pos hend]
      simp only [List.filterMap_nil, List.append_nil]
      exact ⟨fun h => (c1 h).1, c2⟩
    · rw [if_neg hend]
      rcases ih (m3u8CycleGo pl.discontinuity_sequence pl.segments
        pl.media_sequence 0 st).2 with ⟨r1, r2⟩
      constructor
      · intro h
        rw [(c1 h).1, (r1 (c1 h).2)]
        rfl
      · rcases hrec : (m3u8CycleGo pl.discontinuity_sequence pl.segments
            pl.media_sequence 0 st).2.init_downloaded with _ | _
        · rw [(c3 hrec).2, List.nil_append]
          exact r2
        · rw [r1 hrec, List.append_nil]
          exact c2

/-! ### The downloader's initialization prepending

`fetch_segment` (`src/livestream/mod.rs` lines 319-372) receives the
`Segment` struct form used by that file, carrying an optional
initialization resource and a data resource; it serves the initialization
bytes from the per-track LRU cache or fetches and inserts them, fetches
and decrypts the payload, and returns the initialization bytes chained
before the payload bytes.
-/

/-- The `Segment` struct consumed by `fetch_segment` in
`src/livestream/mod.rs`: an optional initialization resource and the data
resource. -/
structure SegmentRecord where
  initialization : Option RemoteData
  data : RemoteData

/-- `LruCache::get` by key equality. -/
def lruGet (lru : List (RemoteData × List Nat)) (i : RemoteData) : Option (List Nat) :=
  match lru with
  | [] => none
  | p :: rest => if p.1 = i then some p.2 else lruGet rest i

/-- `fetch_segment` (`src/livestream/mod.rs` lines 319-372), with network
fetch and decryption abstracted by `fetch` and `decrypt`: returns the
produced bytes and the updated initialization cache. -/
def fetch_segment (fetch : RemoteData → List Nat) (decrypt : List Nat → List Nat)
    (lru : List (RemoteData × List Nat)) (seg : SegmentRecord) :
    List Nat × List (RemoteData × List Nat) :=
  match seg.initialization with
  | none => (decrypt (fetch seg.data), lru)
  | some i =>
    match lruGet lru i with
    | some d => (d ++ decrypt (fetch seg.data), lru)
    | none => (fetch i ++ decrypt (fetch seg.data), (i, fetch i) :: lru)

theorem lruGet_coherent {fetch : RemoteData → List Nat}
    {lru : List (RemoteData × List Nat)} (hco : ∀ p ∈ lru, p.2 = fetch p.1)
    {i : RemoteData} {d : List Nat} (h : lruGet lru i = some d) : d = fetch i := by
  induction lru with
  | nil => cases h
  | cons p rest ih =>
    by_cases hp : p.1 = i
    · simp only [lruGet, hp, if_true, Option.some_inj] at h
      rw [← h, hco p (by simp)]
      rw [hp]
    · simp only [lruGet, hp, if_false] at h
      exact ih (fun q hq => hco q (by simp [hq])) h

/-- C3 counterexample: a playlist declaring map `m1` on its first segment
and a different map `m2` on its second. Both segments are new and are
emitted, yet only `m1` ever reaches the channel: the redeclared
initialization `m2` never takes effect, because `init_downloaded`
(`playlist_fetcher.rs` line 84) is never reset. -/
def redeclaredMapPlaylist : MediaPlaylist :=
  { media_sequence := 0
    discontinuity_sequence := 0
    segments := [ { uri := "s0.ts", discontinuity := false, map := some "m1" },
                  { uri := "s1.ts", discontinuity := false, map := some "m2" } ]
    end_list := true }

/-- C3 is false on the code: in `redeclaredMapPlaylist` the playlist
redeclares a different initialization (`m2`) before the emitted sequence
segment `(0, 1)`, but the poller's emission stream — the only data the
downloader ever sees — contains only the first initialization `m1`; the
newly declared initialization never takes effect for the following
sequence segments. -/
theorem initialization_redeclaration_ignored :
    (redeclaredMapPlaylist.segments.map MediaSegment.map) = [some "m1", some "m2"] ∧
    sessionItems [redeclaredMapPlaylist] =
      [PollItem.initSeg "m1", PollItem.seqSeg (0, 0) "s0.ts",
        PollItem.seqSeg (0, 1) "s1.ts"] ∧
    emittedInits [redeclaredMapPlaylist] = ["m1"] ∧
    "m2" ∉ emittedInits [redeclaredMapPlaylist] := by
  refine ⟨rfl, rfl, rfl, ?_⟩
  intro h
  rw [show emittedInits [redeclaredMapPlaylist] = ["m1"] from rfl] at h
  simp at h

/-- C3 amended: the poller honors only the first initialization (map)
declaration it sees on a newly emitted segment — over a whole session at
most one initialization segment is emitted, and a poller that has already
downloaded an initialization never emits another, so redeclared maps are
ignored; on the downloader side, `fetch_segment` prepends the attached
initialization's bytes (cache-coherent with fetching) to every sequence
segment's decrypted payload. -/
theorem initialization_first_declaration_only (pls : List MediaPlaylist)
    (fetch : RemoteData → List Nat) (decrypt : List Nat → List Nat)
    (lru : List (RemoteData × List Nat)) (seg : SegmentRecord) (i : RemoteData)
    (hco : ∀ p ∈ lru, p.2 = fetch p.1) (hinit : seg.initialization = some i) :
    (emittedInits pls).length ≤ 1 ∧
    (fetch_segment fetch decrypt lru seg).1 = fetch i ++ decrypt (fetch seg.data) ∧
    (∀ p ∈ (fetch_segment fetch decrypt lru seg).2, p.2 = fetch p.1) := by
  refine ⟨(m3u8FetcherSession_init_spec pls ⟨none, false⟩).2, ?_, ?_⟩
  · simp only [fetch_segment, hinit]
    rcases hg : lruGet lru i with _ | d
    · rfl
    · rw [lruGet_coherent hco hg]
  · simp only [fetch_segment, hinit]
    rcases hg : lruGet lru i with _ | d
    · intro p hp
      rcases List.mem_cons.mp hp with hp | hp
      · rw [hp]
      · exact hco p hp
    · exact hco

/-- Witness for `initialization_first_declaration_only`: the
`redeclaredMapPlaylist` session together with a one-segment fetch. -/
theorem initialization_first_declaration_only_witness :
    (emittedInits [redeclaredMapPlaylist]).length ≤ 1 ∧
    (fetch_segment (fun _ => [9]) (fun b => b) []
      ⟨some ⟨"m1", none⟩, ⟨"s0.ts", none⟩⟩).1 = [9] ++ (fun b : List Nat => b) [9] ∧
    (∀ p ∈ (fetch_segment (fun _ => [9]) (fun b => b) []
      ⟨some ⟨"m1", none⟩, ⟨"s0.ts", none⟩⟩).2, p.2 = (fun _ : RemoteData => [9]) p.1) :=
  initialization_first_declaration_only [redeclaredMapPlaylist]
    (fun _ => [9]) (fun b => b) [] ⟨some ⟨"m1", none⟩, ⟨"s0.ts", none⟩⟩ ⟨"m1", none⟩
    (by intro p hp; cases hp) rfl

/-! ## The remux driver

From `remux` and `mux_streams` (`src/mux/mod.rs`, lines 19-51 and
109-114). `remux` first muxes every discontinuity (a failing ffmpeg
invocation propagates immediately through `?`), and only then, in a
second loop, deletes the intermediate concatenated files. The model
records the driver's externally visible actions as an event trace; ffmpeg
outcomes are abstracted by `muxOk`.
-/

/-- An externally visible action of `remux`: one ffmpeg mux invocation
(with its exit status) or one file deletion. -/
inductive RemuxEv where
  | mux (d : Nat) (ok : Bool)
  | del (path : String)
deriving DecidableEq

/-- The mux loop of `remux` (`src/mux/mod.rs` lines 27-40): mux each
discontinuity in turn; a non-zero ffmpeg exit (`mux_streams` lines
109-114) stops the loop at once. Returns the trace and whether every
invocation succeeded. -/
def muxPhase (muxOk : Nat → Bool) : List (Nat × List String) → List RemuxEv × Bool
  | [] => ([], true)
  | (d, _) :: rest =>
    if muxOk d then
      let r := muxPhase muxOk rest
      (RemuxEv.mux d true :: r.1, r.2)
    else ([RemuxEv.mux d false], false)

/-- `remux` (`src/mux/mod.rs` lines 19-51): run the mux loop over the
per-discontinuity concatenated files; if any invocation failed, return
the error having deleted nothing; otherwise delete every intermediate
concatenated file and succeed. -/
def remux (discons : List (Nat × List String)) (muxOk : Nat → Bool) :
    List RemuxEv × Except String Unit :=
  let p := muxPhase muxOk discons
  if p.2 then
    (p.1 ++ (discons.flatMap (fun dp => dp.2)).map RemuxEv.del, Except.ok ())
  else (p.1, Except.error "ffmpeg command failed")

theorem muxPhase_no_del (muxOk : Nat → Bool) (l : List (Nat × List String)) :
    ∀ q, RemuxEv.del q ∉ (muxPhase muxOk l).1 := by
  induction l with
  | nil => intro q h; cases h
  | cons dp rest ih =>
    intro q h
    rcases dp with ⟨d, paths⟩
    by_cases hok : muxOk d
    · simp only [muxPhase, hok, if_true] at h
      rcases List.mem_cons.mp h with h | h
      · cases h
      · exact ih q h
    · simp only [muxPhase, hok, if_false] at h
      rcases List.mem_cons.mp h with h | h
      · cases h
      · cases h

theorem muxPhase_ok_iff (muxOk : Nat → Bool) (l : List (Nat × List String)) :
    (muxPhase muxOk l).2 = true ↔ ∀ d ∈ l.map Prod.fst, muxOk d = true := by
  induction l with
  | nil => simp [muxPhase]
  | cons dp rest ih =>
    rcases dp with ⟨d, paths⟩
    by_cases hok : muxOk d
    · simp only [muxPhase, hok, if_true]
      simp [ih, hok]
    · have he : muxPhase muxOk ((d, paths) :: rest) = ([RemuxEv.mux d false], false) := by
        simp [muxPhase, hok]
      rw [he]
      constructor
      · intro hc; exact Bool.noConfusion hc
      · intro hall; exact absurd (hall d (by simp)) (by simpa using hok)

theorem muxPhase_all_ok_trace (muxOk : Nat → Bool) (l : List (Nat × List String))
    (h : ∀ d ∈ l.map Prod.fst, muxOk d = true) :
    (muxPhase muxOk l).1 = l.map (fun dp => RemuxEv.mux dp.1 true) := by
  induction l with
  | nil => rfl
  | cons dp rest ih =>
    rcases dp with ⟨d, paths⟩
    have hd : muxOk d = true := h d (by simp)
    simp only [muxPhase, hd, if_true, List.map_cons]
    rw [ih (fun x hx => h x (by simp [hx]))]

/-- C9: `remux` deletes the intermediate concatenated files only after
every per-discontinuity mux invocation has succeeded: if any invocation
fails, `remux` returns an error and its trace contains no deletion at
all; if all succeed, the trace is exactly the successful mux invocations
followed by the deletion of every intermediate file; and a deletion can
only ever target an intermediate concatenated file, never a raw segment
file. -/
theorem remux_deletes_only_after_success (discons : List (Nat × List String))
    (muxOk : Nat → Bool) :
    ((∃ d ∈ discons.map Prod.fst, muxOk d = false) →
      (remux discons muxOk).2 = Except.error "ffmpeg command failed" ∧
      ∀ q, RemuxEv.del q ∉ (remux discons muxOk).1) ∧
    ((∀ d ∈ discons.map Prod.fst, muxOk d = true) →
      (remux discons muxOk).2 = Except.ok () ∧
      (remux discons muxOk).1 =
        discons.map (fun dp => RemuxEv.mux dp.1 true) ++
          (discons.flatMap (fun dp => dp.2)).map RemuxEv.del) ∧
    (∀ q, RemuxEv.del q ∈ (remux discons muxOk).1 →
      q ∈ discons.flatMap (fun dp => dp.2)) := by
  refine ⟨?_, ?_, ?_⟩
  · rintro ⟨d, hd, hfail⟩
    have hnot : (muxPhase muxOk discons).2 = false := by
      rcases hp : (muxPhase muxOk discons).2 with _ | _
      · rfl
      · have := (muxPhase_ok_iff muxOk discons).mp hp d hd
        rw [hfail] at this
        cases this
    constructor
    · simp only [remux, hnot, Bool.false_eq_true, if_false]
    · intro q hq
      simp only [remux, hnot, Bool.false_eq_true, if_false] at hq
      exact muxPhase_no_del muxOk discons q hq
  · intro hall
    have hok : (muxPhase muxOk discons).2 = true := (muxPhase_ok_iff muxOk discons).mpr hall
    constructor
    · simp only [remux, hok, if_true]
    · simp only [remux, hok, if_true]
      rw [muxPhase_all_ok_trace muxOk discons hall]
  · intro q hq
    simp only [remux] at hq
    by_cases hok : (muxPhase muxOk discons).2 = true
    · rw [if_pos hok] at hq
      rcases List.mem_append.mp hq with hq | hq
      · exact absurd hq (muxPhase_no_del muxOk discons q)
      · rcases List.mem_map.mp hq with ⟨p, hp, hpe⟩
        cases hpe
        exact hp
    · rw [if_neg hok] at hq
      exact absurd hq (muxPhase_no_del muxOk discons q)

/-- Witness for `remux_deletes_only_after_success`: two discontinuities
where the second mux invocation fails — the run errors with no deletion —
and the same layout where both succeed — both intermediates deleted. -/
theorem remux_deletes_only_after_success_witness :
    ((∃ d ∈ [(0, ["c0.ts"]), (1, ["c1.ts"])].map Prod.fst,
        (fun d => decide (d = 0)) d = false) →
      (remux [(0, ["c0.ts"]), (1, ["c1.ts"])] (fun d => decide (d = 0))).2 =
        Except.error "ffmpeg command failed" ∧
      ∀ q, RemuxEv.del q ∉
        (remux [(0, ["c0.ts"]), (1, ["c1.ts"])] (fun d => decide (d = 0))).1) ∧
    (∃ d ∈ [(0, ["c0.ts"]), (1, ["c1.ts"])].map Prod.fst,
      (fun d => decide (d = 0)) d = false) ∧
    (∀ d ∈ [(0, ["c0.ts"]), (1, ["c1.ts"])].map Prod.fst,
      (fun _ => true) d = true) ∧
    (remux [(0, ["c0.ts"]), (1, ["c1.ts"])] (fun _ => true)).2 = Except.ok () ∧
    (remux [(0, ["c0.ts"]), (1, ["c1.ts"])] (fun _ => true)).1 =
      [RemuxEv.mux 0 true, RemuxEv.mux 1 true, RemuxEv.del "c0.ts", RemuxEv.del "c1.ts"] := by
  have h1 := (remux_deletes_only_after_success [(0, ["c0.ts"]), (1, ["c1.ts"])]
    (fun d => decide (d = 0))).1
  have h2 := (remux_deletes_only_after_success [(0, ["c0.ts"]), (1, ["c1.ts"])]
    (fun _ => true)).2.1 (by decide)
  exact ⟨h1, by decide, by decide, h2.1, by rw [h2.2]; rfl⟩

/-! ## Poller failure and the download loop

From `m3u8_fetcher` (`playlist_fetcher.rs` lines 26-34),
`Livestream::download` (`src/livestream/mod.rs` lines 214-315), the CLI
options (`src/cli.rs`) and the signal handler (`src/main.rs` lines
40-67). A playlist parse failure makes the poller return an error through
`?`. `Livestream::download` never calls `Stopper::stop`: the stopper is
set only by the interrupt handler in `main.rs`; poller task results are
joined and propagated only after the writer loop has ended.
-/

/-- `DownloadOptions` (`src/cli.rs` lines 23-41): the complete field
list — there is no fail-fast or error-escalation option. -/
structure DownloadOptions where
  output : Option String
  no_remux : Bool
  choose_stream : Bool
  insecure : Bool
deriving DecidableEq

/-- `NetworkOptions` (`src/cli.rs` lines 45-71): the complete field
list — there is no fail-fast or error-escalation option. -/
structure NetworkOptions where
  max_retries : Nat
  timeout : Nat
  max_concurrent_downloads : Nat
  cookies : Option String
  copy_query : Bool
deriving DecidableEq

/-- `Args` (`src/cli.rs` lines 9-19). -/
structure Args where
  m3u8_url : String
  download_options : DownloadOptions
  network_options : NetworkOptions
deriving DecidableEq

/-- One poll cycle at the fetch/parse boundary (`playlist_fetcher.rs`
lines 31-34): a playlist that fails to parse (`none`) aborts the poller
with an error through `?`; otherwise the cycle's segment loop runs. -/
def m3u8FetcherCycleResult (parsed : Option MediaPlaylist) (st : FetcherState) :
    Except String (List PollItem × FetcherState) :=
  match parsed with
  | none => Except.error "failed to parse media playlist"
  | some pl => Except.ok (m3u8FetcherCycle pl st)

/-- An event observed by the capture coordinator during a session:
a completed segment download delivered to the writer, the termination of
a poller task (successful or failed), or the operator interrupt that the
signal handler in `main.rs` turns into `Stopper::stop`. -/
inductive DownloadEv where
  | completed (item : Nat)
  | pollerDone (ok : Bool)
  | interrupt
deriving DecidableEq

/-- The writer/coordinator loop of `Livestream::download` (lines 272-302)
folded over the session's events with the stopper's flag threaded
through: `interrupt` sets the flag (the only writer to it —
`src/main.rs` line 59); once the flag is set the writer saves no further
completion; a poller's termination changes nothing here — in particular a
poller failure does NOT set the flag. Returns the saved items, the final
flag and the number of failed pollers. -/
def downloadLoop : List DownloadEv → Bool → List Nat × Bool × Nat
  | [], stopped => ([], stopped, 0)
  | ev :: rest, stopped =>
    match ev with
    | DownloadEv.interrupt => downloadLoop rest true
    | DownloadEv.pollerDone ok =>
      let r := downloadLoop rest stopped
      (r.1, r.2.1, r.2.2 + (if ok then 0 else 1))
    | DownloadEv.completed x =>
      let r := downloadLoop rest stopped
      (if stopped then r.1 else x :: r.1, r.2.1, r.2.2)

/-- `Livestream::download` over a session: run the writer loop, then join
the poller handles (lines 309-312) — the session fails iff some poller
failed. Result: `(saved items, stop requested, session errored)`. -/
def download (events : List DownloadEv) : List Nat × Bool × Bool :=
  let r := downloadLoop events false
  (r.1, r.2.1, decide (0 < r.2.2))

/-- The completed items of an event list. -/
def completedItems (events : List DownloadEv) : List Nat :=
  events.filterMap (fun ev => match ev with
    | DownloadEv.completed x => some x
    | _ => none)

/-- C4 counterexample: a session in which one poller fails (e.g. on a
playlist parse error) before two sibling downloads complete and another
poller ends normally. The session errors, but no global stop is ever
requested and the sibling's completions are still saved by the writer:
the poller failure did not escalate, and `Args`/`DownloadOptions`/
`NetworkOptions` carry no fail-fast policy that could make it escalate. -/
theorem poller_failure_does_not_escalate :
    m3u8FetcherCycleResult none ⟨none, false⟩ =
      Except.error "failed to parse media playlist" ∧
    download [DownloadEv.pollerDone false, DownloadEv.completed 1,
      DownloadEv.completed 2, DownloadEv.pollerDone true] = ([1, 2], false, true) := by
  constructor
  · rfl
  · rfl

/-- C4 amended: a playlist parse failure terminates that track's poller
with an error (fatal for this track), but it does not escalate to a
global stop: the stopper is set only by an operator interrupt, so in any
interrupt-free session the writer saves every completed download —
including those delivered after a poller failure — and the failure
surfaces as a session error only when the poller handles are joined after
the writer loop ends; no configurable fail-fast policy exists in the
code. -/
theorem poller_failure_fatal_but_not_global (events : List DownloadEv)
    (st : FetcherState) (hni : DownloadEv.interrupt ∉ events) :
    (∀ e, m3u8FetcherCycleResult none st = Except.error e →
      e = "failed to parse media playlist") ∧
    (download events).2.1 = false ∧
    (download events).1 = completedItems events ∧
    ((download events).2.2 = true ↔ DownloadEv.pollerDone false ∈ events) := by
  have key : ∀ evs, DownloadEv.interrupt ∉ evs →
      (downloadLoop evs false).1 = completedItems evs ∧
      (downloadLoop evs false).2.1 = false ∧
      (0 < (downloadLoop evs false).2.2 ↔ DownloadEv.pollerDone false ∈ evs) := by
    intro evs
    induction evs with
    | nil => intro hn; refine ⟨rfl, rfl, by simp [downloadLoop]⟩
    | cons ev rest ih =>
      intro hn
      have hnr : DownloadEv.interrupt ∉ rest := fun h => hn (by simp [h])
      rcases ih hnr with ⟨ih1, ih2, ih3⟩
      match ev with
      | DownloadEv.interrupt => exact absurd (by simp) hn
      | DownloadEv.pollerDone ok =>
        refine ⟨?_, ?_, ?_⟩
        · simp only [downloadLoop, completedItems, List.filterMap_cons]
          exact ih1
        · simp only [downloadLoop]
          exact ih2
        · simp only [downloadLoop]
          rcases ok with _ | _
          · simp only [if_neg (by simp : ¬ (false = true))]
            constructor
            · intro _; simp
            · intro _; omega
          · norm_num
            exact ih3
      | DownloadEv.completed x =>
        refine ⟨?_, ?_, ?_⟩
        · simp only [downloadLoop, completedItems, List.filterMap_cons, Bool.false_eq_true,
            if_false]
          rw [ih1]
          rfl
        · simp only [downloadLoop]
          exact ih2
        · simp only [downloadLoop]
          rw [ih3]
          simp
  rcases key events hni with ⟨k1, k2, k3⟩
  refine ⟨?_, ?_, ?_, ?_⟩
  · intro e he
    simp only [m3u8FetcherCycleResult] at he
    cases he
    rfl
  · exact k2
  · exact k1
  · simp only [download]
    rw [decide_eq_true_eq]
    exact k3

/-- Witness for `poller_failure_fatal_but_not_global` on the
counterexample session. -/
theorem poller_failure_fatal_but_not_global_witness :
    (∀ e, m3u8FetcherCycleResult none ⟨none, false⟩ = Except.error e →
      e = "failed to parse media playlist") ∧
    (download [DownloadEv.pollerDone false, DownloadEv.completed 1,
      DownloadEv.completed 2, DownloadEv.pollerDone true]).2.1 = false ∧
    (download [DownloadEv.pollerDone false, DownloadEv.completed 1,
      DownloadEv.completed 2, DownloadEv.pollerDone true]).1 =
      completedItems [DownloadEv.pollerDone false, DownloadEv.completed 1,
        DownloadEv.completed 2, DownloadEv.pollerDone true] ∧
    ((download [DownloadEv.pollerDone false, DownloadEv.completed 1,
      DownloadEv.completed 2, DownloadEv.pollerDone true]).2.2 = true ↔
      DownloadEv.pollerDone false ∈ [DownloadEv.pollerDone false, DownloadEv.completed 1,
        DownloadEv.completed 2, DownloadEv.pollerDone true]) :=
  poller_failure_fatal_but_not_global
    [DownloadEv.pollerDone false, DownloadEv.completed 1,
      DownloadEv.completed 2, DownloadEv.pollerDone true]
    ⟨none, false⟩ (by decide)

/-! ## The concatenation engine

From `concat_streams` and `gen_concat_path` (`src/mux/concat.rs`, lines
16-96) and `save_segment` (`src/livestream/mod.rs`, lines 374-406).
`save_segment` accumulates each track's ledger in a `BinaryHeap` keyed by
the segment; `concat_streams` walks a track's ledger in order,
partitioning it into contiguous runs sharing one discontinuity sequence
and producing one concatenated file per run.
-/

/-- `MediaFormat` (`src/livestream/media_format.rs` lines 12-29). -/
inductive MediaFormat where
  | MpegTs | FMp4 | Aac | Adts | Mp3 | Ac3 | EAc3 | WebVtt | Unknown
deriving DecidableEq

/-- `MediaFormat::extension` (`src/livestream/media_format.rs` lines
98-113). -/
def MediaFormat.extension : MediaFormat → String
  | MediaFormat.MpegTs => "ts"
  | MediaFormat.FMp4 => "mp4"
  | MediaFormat.Aac => "m4a"
  | MediaFormat.Adts => "aac"
  | MediaFormat.Mp3 => "mp3"
  | MediaFormat.Ac3 => "ac3"
  | MediaFormat.EAc3 => "eac3"
  | MediaFormat.WebVtt => "vtt"
  | MediaFormat.Unknown => "ts"

/-- The fields of a `Segment::Sequence` that the concatenation engine
reads (`src/livestream/segment.rs` lines 12-18). -/
structure SeqSegment where
  url : String
  dseq : Nat
  seq : Nat
  format : MediaFormat
deriving DecidableEq

instance : Inhabited SeqSegment := ⟨⟨"", 0, 0, MediaFormat.Unknown⟩⟩

/-- One entry of a track's downloaded-segment ledger: a sequence segment
and its on-disk path (`save_segment`, `src/livestream/mod.rs` line 403). -/
abbrev LedgerEntry := SeqSegment × String

/-- A ledger entry's `(discontinuity-sequence, media-sequence)` key. -/
def entryKey (e : LedgerEntry) : SegKey := (e.1.dseq, e.1.seq)

/-- Rust `format!("{:010}", n)`: decimal, zero-padded to width 10. -/
def pad10 (n : Nat) : String :=
  String.mk (List.replicate (10 - (Nat.repr n).length) '0') ++ Nat.repr n

/-- `gen_concat_path` (`src/mux/concat.rs` lines 79-96): the concatenated
file's path `{output_dir}/{stream}_{d:010}.{ext}`, with the extension
taken from the run's first segment's detected format. -/
def gen_concat_path (output_dir stream : String) (segment : SeqSegment) (d : Nat) : String :=
  output_dir ++ "/" ++ stream ++ "_" ++ pad10 d ++ "." ++ segment.format.extension

/-- The per-stream loop of `concat_streams` (`src/mux/concat.rs` lines
25-73) over a track's ledger: maintain the pending run
(`segments_to_process`) and its discontinuity sequence (`cur_discon_seq`);
when the discontinuity changes, flush the pending run (guarded by the
non-empty check of line 43); at the end flush the last run (lines 68-73).
Each flushed run records its discontinuity, its entries in order, and the
concatenated file's path. -/
def concatStreamsGo (output_dir stream : String) :
    List LedgerEntry → List LedgerEntry → Option Nat →
    List (Nat × List LedgerEntry × String)
  | [], toProc, cur =>
    if toProc.isEmpty then []
    else
      match cur with
      | some d => [(d, toProc, gen_concat_path output_dir stream (toProc.headD default).1 d)]
      | none => []
  | e :: rest, toProc, cur =>
    match cur with
    | none => concatStreamsGo output_dir stream rest (toProc ++ [e]) (some e.1.dseq)
    | some c =>
      if c = e.1.dseq then
        concatStreamsGo output_dir stream rest (toProc ++ [e]) (some c)
      else
        (if toProc.isEmpty then []
         else [(c, toProc, gen_concat_path output_dir stream (toProc.headD default).1 c)]) ++
          concatStreamsGo output_dir stream rest [e] (some e.1.dseq)

/-- A track's runs as `concat_streams` computes them, starting with an
empty pending run. -/
def concat_stream_runs (output_dir stream : String) (ledger : List LedgerEntry) :
    List (Nat × List LedgerEntry × String) :=
  concatStreamsGo output_dir stream ledger [] none

/-- Stable sorted insertion by key, the helper of `sortLedger`. -/
def insertByKey (x : LedgerEntry) : List LedgerEntry → List LedgerEntry
  | [] => [x]
  | y :: ys => if keyLe (entryKey x) (entryKey y) then x :: y :: ys else y :: insertByKey x ys

/-- Modelled from the spec: the ledger is sorted by
`(discontinuity-sequence, media-sequence)` key before the concatenation
stage partitions it ("the concatenation stage sorting by key before
merging"). In the source, `save_segment` accumulates the ledger in a
`BinaryHeap<(Segment, PathBuf)>` (`src/livestream/mod.rs` line 376) while
`concat_streams` consumes a `Vec`; the conversion between the two — the
ordered extraction — is not present under `src/`, so it is modelled here
as a stable insertion sort by key. -/
def sortLedger : List LedgerEntry → List LedgerEntry
  | [] => []
  | x :: xs => insertByKey x (sortLedger xs)

/-- The concatenation stage on one track: sort the ledger by key, then
partition into per-discontinuity runs. -/
def concat_streams_track (output_dir stream : String) (ledger : List LedgerEntry) :
    List (Nat × List LedgerEntry × String) :=
  concat_stream_runs output_dir stream (sortLedger ledger)

theorem insertByKey_perm (x : LedgerEntry) (l : List LedgerEntry) :
    (insertByKey x l).Perm (x :: l) := by
  induction l with
  | nil => exact List.Perm.refl _
  | cons y ys ih =>
    by_cases h : keyLe (entryKey x) (entryKey y)
    · rw [insertByKey, if_pos h]
    · rw [insertByKey, if_neg h]
      exact (List.Perm.cons y ih).trans (List.Perm.swap x y ys)

theorem sortLedger_perm (l : List LedgerEntry) : (sortLedger l).Perm l := by
  induction l with
  | nil => exact List.Perm.refl _
  | cons x xs ih =>
    exact (insertByKey_perm x (sortLedger xs)).trans (List.Perm.cons x ih)

theorem insertByKey_sorted (x : LedgerEntry) (l : List LedgerEntry)
    (hl : l.Pairwise (fun a b => keyLe (entryKey a) (entryKey b))) :
    (insertByKey x l).Pairwise (fun a b => keyLe (entryKey a) (entryKey b)) := by
  induction l with
  | nil => simp [insertByKey]
  | cons y ys ih =>
    rcases List.pairwise_cons.mp hl with ⟨hy, hys⟩
    by_cases h : keyLe (entryKey x) (entryKey y)
    · rw [insertByKey, if_pos h]
      refine List.pairwise_cons.mpr ⟨?_, hl⟩
      intro z hz
      rcases List.mem_cons.mp hz with hz | hz
      · subst hz; exact h
      · exact keyLe_trans h (hy z hz)
    · rw [insertByKey, if_neg h]
      have hyx : keyLe (entryKey y) (entryKey x) := keyLe_of_lt (keyLt_of_not_le h)
      refine List.pairwise_cons.mpr ⟨?_, ih hys⟩
      intro z hz
      have hz2 : z ∈ x :: ys := (insertByKey_perm x ys).mem_iff.mp hz
      rcases List.mem_cons.mp hz2 with hz2 | hz2
      · subst hz2; exact hyx
      · exact hy z hz2

theorem sortLedger_sorted (l : List LedgerEntry) :
    (sortLedger l).Pairwise (fun a b => keyLe (entryKey a) (entryKey b)) := by
  induction l with
  | nil => simp [sortLedger]
  | cons x xs ih => exact insertByKey_sorted x (sortLedger xs) ih

theorem keyLt_of_le_of_ne {a b : SegKey} (h1 : keyLe a b) (h2 : a ≠ b) : keyLt a b := by
  rcases h1 with h1 | ⟨h1, h1'⟩
  · exact Or.inl h1
  · refine Or.inr ⟨h1, ?_⟩
    rcases Nat.lt_or_ge a.2 b.2 with h | h
    · exact h
    · exact absurd (Prod.ext h1 (le_antisymm h1' h)) h2

instance : IsAntisymm LedgerEntry (fun a b => keyLt (entryKey a) (entryKey b)) :=
  ⟨fun _ _ h1 h2 => absurd (keyLt_trans h1 h2) (keyLt_irrefl _)⟩

theorem sorted_strict_of_nodup_keys (l : List LedgerEntry)
    (hs : l.Pairwise (fun a b => keyLe (entryKey a) (entryKey b)))
    (hnd : (l.map entryKey).Nodup) :
    l.Pairwise (fun a b => keyLt (entryKey a) (entryKey b)) := by
  have hp : l.Pairwise (fun a b => entryKey a ≠ entryKey b) :=
    (List.pairwise_map.mp hnd)
  exact (hs.and hp).imp (fun hab => keyLt_of_le_of_ne hab.1 hab.2)

theorem sortLedger_eq_of_perm (l1 l2 : List LedgerEntry) (hperm : l1.Perm l2)
    (hnd : (l1.map entryKey).Nodup) : sortLedger l1 = sortLedger l2 := by
  have hs1 : (sortLedger l1).Perm l1 := sortLedger_perm l1
  have hs2 : (sortLedger l2).Perm l2 := sortLedger_perm l2
  have hp : (sortLedger l1).Perm (sortLedger l2) :=
    (hs1.trans hperm).trans hs2.symm
  have hnd1 : ((sortLedger l1).map entryKey).Nodup :=
    ((hs1.map entryKey).nodup_iff).mpr hnd
  have hnd2 : ((sortLedger l2).map entryKey).Nodup :=
    ((hp.map entryKey).nodup_iff).mp hnd1
  exact List.eq_of_perm_of_sorted hp
    (sorted_strict_of_nodup_keys _ (sortLedger_sorted l1) hnd1)
    (sorted_strict_of_nodup_keys _ (sortLedger_sorted l2) hnd2)

/-- C2: the concatenation stage sorts a track's ledger by
`(discontinuity-sequence, media-sequence)` key before partitioning it
into per-discontinuity runs, so for two ledgers holding the same
`(segment, path)` pairs in any two arrival orders (with keys unique per
track, as the poller guarantees), the produced runs — which
discontinuity files exist, which segments each contains and in which
order, and each file's path — are identical. -/
theorem concat_streams_order_independent (output_dir stream : String)
    (l1 l2 : List LedgerEntry) (hperm : l1.Perm l2)
    (hnd : (l1.map entryKey).Nodup) :
    (sortLedger l1).Perm l1 ∧
    (sortLedger l1).Pairwise (fun a b => keyLe (entryKey a) (entryKey b)) ∧
    concat_streams_track output_dir stream l1 = concat_streams_track output_dir stream l2 := by
  refine ⟨sortLedger_perm l1, sortLedger_sorted l1, ?_⟩
  unfold concat_streams_track
  rw [sortLedger_eq_of_perm l1 l2 hperm hnd]

/-- Witness for `concat_streams_order_independent`: the same three
`(segment, path)` pairs spanning two discontinuities, delivered in two
different arrival orders, concatenate identically. -/
theorem concat_streams_order_independent_witness :
    ([(⟨"b.ts", 0, 1, MediaFormat.MpegTs⟩, "pb"),
      (⟨"c.ts", 1, 2, MediaFormat.MpegTs⟩, "pc"),
      (⟨"a.ts", 0, 0, MediaFormat.MpegTs⟩, "pa")] : List LedgerEntry).Perm
      [(⟨"a.ts", 0, 0, MediaFormat.MpegTs⟩, "pa"),
       (⟨"b.ts", 0, 1, MediaFormat.MpegTs⟩, "pb"),
       (⟨"c.ts", 1, 2, MediaFormat.MpegTs⟩, "pc")] ∧
    concat_streams_track "out" "main"
      [(⟨"b.ts", 0, 1, MediaFormat.MpegTs⟩, "pb"),
       (⟨"c.ts", 1, 2, MediaFormat.MpegTs⟩, "pc"),
       (⟨"a.ts", 0, 0, MediaFormat.MpegTs⟩, "pa")] =
    concat_streams_track "out" "main"
      [(⟨"a.ts", 0, 0, MediaFormat.MpegTs⟩, "pa"),
       (⟨"b.ts", 0, 1, MediaFormat.MpegTs⟩, "pb"),
       (⟨"c.ts", 1, 2, MediaFormat.MpegTs⟩, "pc")] := by
  have hperm : ([(⟨"b.ts", 0, 1, MediaFormat.MpegTs⟩, "pb"),
      (⟨"c.ts", 1, 2, MediaFormat.MpegTs⟩, "pc"),
      (⟨"a.ts", 0, 0, MediaFormat.MpegTs⟩, "pa")] : List LedgerEntry).Perm
      [(⟨"a.ts", 0, 0, MediaFormat.MpegTs⟩, "pa"),
       (⟨"b.ts", 0, 1, MediaFormat.MpegTs⟩, "pb"),
       (⟨"c.ts", 1, 2, MediaFormat.MpegTs⟩, "pc")] := by decide
  exact ⟨hperm, (concat_streams_order_independent "out" "main" _ _ hperm (by decide)).2.2⟩
